import Mathlib

/-!
Clox `compile` driver: embedding and verification.

`src/Clox/src/compiler.c` holds one function, `compile`, which initialises the
scanner and then pulls tokens in a `for(;;)` loop, printing a line-number
column for each token.  The scanner itself (`scanner.h`, `initScanner`,
`scanToken`, the `Token` struct) is not part of the source tree, so

* `compile` is embedded over an arbitrary scanner interface `ScannerApi`, and
* a reference scanner is modelled from the specification (section 4.1) to
  settle the properties that speak about `scanToken` itself.
-/

namespace Clox

/-! ## Tokens and the scanner interface used by `compile` -/

/-- Modelled from the spec: the token kinds declared in the absent `scanner.h`; the
closed set of lexical categories of the glossary plus the sentinels `ERROR` and `EOF`. -/
inductive TokenType
  | IDENTIFIER
  | KEYWORD
  | NUMBER
  | STRING
  | OPERATOR
  | ERROR
  | EOF
  deriving DecidableEq

/-- Modelled from the spec: the `Token` struct declared in the absent `scanner.h`.
The lexeme is the slice `[start, start + length)` of the source, `line` is a C `int`
(the only field `compile` reads), and an `ERROR` token carries its human-readable
reason alongside the lexeme (empty for every other kind). -/
structure Token where
  kind : TokenType
  start : Nat
  length : Nat
  line : Int
  reason : String
  deriving DecidableEq

/-- The two functions of the absent `scanner.h` that `compile` calls.  In C they act on
a global scanner; here the scanner state `σ` is passed explicitly. -/
structure ScannerApi (σ : Type) where
  initScanner : String → σ
  scanToken : σ → Token × σ

/-! ## Observable events and `printf` -/

/-- Externally visible calls made by `compile`, in program order. -/
inductive Event
  | initScanner (source : String)
  | scanToken (result : Token)
  | printf (fmt : String) (args : List Int)
  deriving DecidableEq

/-- Decimal digits of a natural number, most significant first (`fuel` bounds the
number of digits). -/
def decDigits : Nat → Nat → List Char
  | 0, _ => []
  | fuel + 1, n =>
    if n < 10 then [Nat.digitChar n]
    else decDigits fuel (n / 10) ++ [Nat.digitChar (n % 10)]

/-- The `%d` conversion of C `printf`: optional minus sign, then the decimal digits. -/
def fmtD (v : Int) : List Char :=
  if v < 0 then '-' :: decDigits (v.natAbs + 1) v.natAbs
  else decDigits (v.natAbs + 1) v.natAbs

/-- The `%4d` conversion: `%d` right-justified in a field of minimum width 4. -/
def fmt4d (v : Int) : List Char :=
  List.replicate (4 - (fmtD v).length) ' ' ++ fmtD v

/-- The subset of `printf` format strings `compile` uses: `%4d` consumes one argument,
every other character is copied. -/
def formatC : List Char → List Int → List Char
  | [], _ => []
  | '%' :: '4' :: 'd' :: rest, v :: args => fmt4d v ++ formatC rest args
  | c :: rest, args => c :: formatC rest args

/-- Text an event writes to standard output. -/
def Event.text : Event → String
  | .printf fmt args => String.mk (formatC fmt.toList args)
  | _ => ""

/-- Standard output produced by a trace of events. -/
def stdout (trace : List Event) : String :=
  String.join (trace.map Event.text)

/-! ## The `for(;;)` loop and `compile` -/

/-- Outcome of one execution of a loop body: fall through to the next iteration, or
leave the loop (`break`/`return`). -/
inductive Ctl (α : Type)
  | next (s : α)
  | leave (s : α)

/-- Result of running a loop for a bounded number of iterations: either the loop was
left, or it is still running in the given state when the budget is used up. -/
inductive Run (α : Type)
  | running (s : α)
  | returned (s : α)

/-- State carried by a run, whichever way it ended. -/
def Run.state {α : Type} : Run α → α
  | .running s => s
  | .returned s => s

/-- The C loop `for(;;) body`, run for at most `fuel` iterations. -/
def loopFor {α : Type} (body : α → Ctl α) : Nat → α → Run α
  | 0, s => .running s
  | fuel + 1, s =>
    match body s with
    | .next s' => loopFor body fuel s'
    | .leave s' => .returned s'

/-- Local and global state of `compile`: the scanner, the local `line`, and the trace
of calls made so far. -/
structure CompileState (σ : Type) where
  scanner : σ
  line : Int
  trace : List Event

/-- Body of the loop in `compile` (compiler.c lines 11-17). -/
def compileBody {σ : Type} (api : ScannerApi σ) (st : CompileState σ) :
    Ctl (CompileState σ) :=
  let token := (api.scanToken st.scanner).1
  let scanner := (api.scanToken st.scanner).2
  let trace := st.trace ++ [Event.scanToken token]
  if token.line ≠ st.line then
    .next { scanner := scanner,
            line := token.line,
            trace := trace ++ [Event.printf "%4d " [token.line]] }
  else
    .next { scanner := scanner,
            line := st.line,
            trace := trace ++ [Event.printf "   | " []] }

/-- State of `compile` on entry to the loop (compiler.c lines 8-9). -/
def compileInit {σ : Type} (api : ScannerApi σ) (source : String) : CompileState σ :=
  { scanner := api.initScanner source,
    line := -1,
    trace := [Event.initScanner source] }

/-- The function `compile(source)`, run for at most `fuel` loop iterations. -/
def compile {σ : Type} (api : ScannerApi σ) (source : String) (fuel : Nat) :
    Run (CompileState σ) :=
  loopFor (compileBody api) fuel (compileInit api source)

/-! ## Derived observations -/

/-- Scanner state before the `i`-th call of `scanToken` (counting from 0). -/
def scannerAt {σ : Type} (api : ScannerApi σ) (source : String) : Nat → σ
  | 0 => api.initScanner source
  | i + 1 => (api.scanToken (scannerAt api source i)).2

/-- The `i`-th token of the stream the scanner produces for `source`. -/
def tokenAt {σ : Type} (api : ScannerApi σ) (source : String) (i : Nat) : Token :=
  (api.scanToken (scannerAt api source i)).1

/-- Line of the token scanned before the `i`-th one, `-1` before the first. -/
def prevLine {σ : Type} (api : ScannerApi σ) (source : String) : Nat → Int
  | 0 => -1
  | i + 1 => (tokenAt api source i).line

/-- Events of the `i`-th loop iteration, as the line-prefix rule describes them: the
`scanToken` call, then the line number if the line changed and the marker otherwise. -/
def iterEvents {σ : Type} (api : ScannerApi σ) (source : String) (i : Nat) : List Event :=
  [Event.scanToken (tokenAt api source i),
   if (tokenAt api source i).line ≠ prevLine api source i then
     Event.printf "%4d " [(tokenAt api source i).line]
   else Event.printf "   | " []]

/-- Prefix the line-prefix rule assigns to a token on `line` following one on `prev`. -/
def linePrefix (prev line : Int) : String :=
  if line ≠ prev then String.mk (fmt4d line ++ [' ']) else "   | "

/-- Standard output written during the `i`-th loop iteration: the text of the events
`compile` adds to its trace between `i` and `i + 1` iterations. -/
def iterationOutput {σ : Type} (api : ScannerApi σ) (source : String) (i : Nat) : String :=
  stdout ((compile api source (i + 1)).state.trace.drop
    (compile api source i).state.trace.length)

/-- The line number an event prints, if it is a `printf("%4d ", v)` call. -/
def Event.lineArg : Event → Option Int
  | .printf fmt [v] => if fmt = "%4d " then some v else none
  | _ => none

/-- Line numbers printed by a trace, in order. -/
def printedLines (trace : List Event) : List Int :=
  trace.filterMap Event.lineArg

/-- Results of the `scanToken` calls recorded in a trace, in order. -/
def scannedTokens (trace : List Event) : List Token :=
  trace.filterMap fun e =>
    match e with
    | .scanToken t => some t
    | _ => none

/-- Number of `initScanner` calls recorded in a trace. -/
def initCalls (trace : List Event) : Nat :=
  (trace.filter fun e =>
    match e with
    | .initScanner _ => true
    | _ => false).length

/-- Trace of `compile` after `n` iterations, as a function of the token stream. -/
def traceAfter {σ : Type} (api : ScannerApi σ) (source : String) : Nat → List Event
  | 0 => [Event.initScanner source]
  | n + 1 => traceAfter api source n ++ iterEvents api source n

/-- State after one more iteration of the loop body, as a function on states. -/
def bodyState {σ : Type} (api : ScannerApi σ) (st : CompileState σ) : CompileState σ :=
  { scanner := (api.scanToken st.scanner).2,
    line := (api.scanToken st.scanner).1.line,
    trace := st.trace ++ [Event.scanToken (api.scanToken st.scanner).1,
      if (api.scanToken st.scanner).1.line ≠ st.line then
        Event.printf "%4d " [(api.scanToken st.scanner).1.line]
      else Event.printf "   | " []] }

/-! ## Reference scanner, modelled from the specification (section 4.1) -/

/-- Modelled from the spec: character class of the absent scanner: letter or underscore,
the characters that start an identifier. -/
def isAlpha (c : Char) : Bool :=
  c.isAlpha || c == '_'

/-- Modelled from the spec: character class of the absent scanner: decimal digit. -/
def isDigit (c : Char) : Bool :=
  c.isDigit

/-- Modelled from the spec: character class of the absent scanner: letter, digit or
underscore, the characters that continue an identifier. -/
def isAlphaNum (c : Char) : Bool :=
  isAlpha c || isDigit c

/-- Modelled from the spec: character class of the absent scanner: whitespace skipped
between tokens. -/
def isSpace (c : Char) : Bool :=
  c == ' ' || c == '\r' || c == '\t' || c == '\n'

/-- Modelled from the spec: character class of the absent scanner: operator/punctuation
character, one that no earlier branch of the first-character dispatch claims (not
whitespace, letter, underscore, digit or double quote). -/
def isOperatorChar (c : Char) : Bool :=
  !(isSpace c || isAlpha c || isDigit c || c == '"')

/-- Modelled from the spec: well-formedness of an entry of the absent operator table:
nonempty, made of operator/punctuation characters, and not starting like a `//`
comment. -/
def validSpelling (w : List Char) : Bool :=
  !w.isEmpty && w.all isOperatorChar && !(['/', '/'].isPrefixOf w)

/-- Modelled from the spec: the fixed compile-time tables of the language, which the
absent scanner would hold: the keyword table and the known operator spellings.  The
spec leaves both open, so they are parameters of the reference scanner. -/
structure Lexicon where
  keywords : List (List Char)
  operators : List (List Char)
  valid : ∀ w ∈ operators, validSpelling w = true

/-- Modelled from the spec: the scanner state of the absent `scanner.c`: the immutable
source buffer, the offsets `start` and `current`, and the running line counter (an
unbounded integer here; the spec gives it no width). -/
structure Scanner where
  source : List Char
  start : Nat
  current : Nat
  line : Int
  deriving DecidableEq

/-- Modelled from the spec: `initScanner` of the absent `scanner.c`: a scanner at the
start of the buffer, on line 1. -/
def initScanner (source : String) : Scanner :=
  { source := source.toList, start := 0, current := 0, line := 1 }

/-- Modelled from the spec: step 1 of `nextToken`, on the unread input.  Returns the
number of characters skipped and the number of newlines among them.  The flag tells
whether the cursor is inside a `//` comment, which runs to the end of the line. -/
def skipWhitespace : Bool → List Char → Nat × Nat
  | _, [] => (0, 0)
  | true, c :: rest =>
    if c = '\n' then ((skipWhitespace false rest).1 + 1, (skipWhitespace false rest).2 + 1)
    else ((skipWhitespace true rest).1 + 1, (skipWhitespace true rest).2)
  | false, c :: rest =>
    if c = ' ' ∨ c = '\r' ∨ c = '\t' then
      ((skipWhitespace false rest).1 + 1, (skipWhitespace false rest).2)
    else if c = '\n' then
      ((skipWhitespace false rest).1 + 1, (skipWhitespace false rest).2 + 1)
    else if c = '/' then
      match rest with
      | d :: rest' =>
        if d = '/' then ((skipWhitespace true rest').1 + 2, (skipWhitespace true rest').2)
        else (0, 0)
      | [] => (0, 0)
    else (0, 0)

/-- Modelled from the spec: the "maximal run" loops of the absent scanner: length of the
longest prefix of the input whose characters all satisfy `p`. -/
def runLength (p : Char → Bool) : List Char → Nat
  | [] => 0
  | c :: rest => if p c then runLength p rest + 1 else 0

/-- Modelled from the spec: length of a number lexeme: a maximal run of digits, then
optionally one `.` followed by at least one digit and the digits after it. -/
def numberLength (input : List Char) : Nat :=
  let whole := runLength isDigit input
  match input.drop whole with
  | '.' :: d :: _ =>
    if isDigit d then whole + 1 + runLength isDigit (input.drop (whole + 1)) else whole
  | _ => whole

/-- Modelled from the spec: result of scanning the body of a string literal in the absent
scanner: characters consumed, newlines among them, and whether the closing quote was
found. -/
structure StringScan where
  length : Nat
  newlines : Nat
  closed : Bool

/-- Modelled from the spec: the body of a string after the opening quote: consume until
an unescaped `"` (a backslash escapes the character after it) or the end of the source,
counting the newlines consumed. -/
def stringBody : List Char → StringScan
  | [] => { length := 0, newlines := 0, closed := false }
  | c :: rest =>
    if c = '"' then { length := 1, newlines := 0, closed := true }
    else if c = '\\' then
      match rest with
      | e :: rest' =>
        { length := (stringBody rest').length + 2,
          newlines := (stringBody rest').newlines + (if e = '\n' then 1 else 0),
          closed := (stringBody rest').closed }
      | [] => { length := 1, newlines := 0, closed := false }
    else
      { length := (stringBody rest).length + 1,
        newlines := (stringBody rest).newlines + (if c = '\n' then 1 else 0),
        closed := (stringBody rest).closed }

/-- Modelled from the spec: maximal munch over the known operator spellings: the length
of the longest spelling that is a prefix of the input, `0` if none is. -/
def longestOperator (operators : List (List Char)) (input : List Char) : Nat :=
  match operators with
  | [] => 0
  | w :: ws =>
    if w.isPrefixOf input then max w.length (longestOperator ws input)
    else longestOperator ws input

/-- Modelled from the spec: one lexical unit consumed by the absent scanner: its kind,
length, the newlines inside it, and the reason text of an `ERROR`. -/
structure Lexed where
  kind : TokenType
  length : Nat
  newlines : Nat
  reason : String

/-- Modelled from the spec: step 3 of `nextToken`: consume exactly one lexical unit,
dispatching on the first character `c` of the unread input `c :: rest`.  A string
lexeme spans both quotes; an unknown character gives an `ERROR` of one character. -/
def lexUnit (lx : Lexicon) (c : Char) (rest : List Char) : Lexed :=
  if isAlpha c then
    let n := runLength isAlphaNum rest + 1
    { kind := if (c :: rest).take n ∈ lx.keywords then TokenType.KEYWORD
              else TokenType.IDENTIFIER,
      length := n, newlines := 0, reason := "" }
  else if isDigit c then
    { kind := TokenType.NUMBER, length := numberLength (c :: rest),
      newlines := 0, reason := "" }
  else if c = '"' then
    let body := stringBody rest
    if body.closed then
      { kind := TokenType.STRING, length := body.length + 1,
        newlines := body.newlines, reason := "" }
    else
      { kind := TokenType.ERROR, length := body.length + 1,
        newlines := body.newlines, reason := "unterminated string" }
  else
    let n := longestOperator lx.operators (c :: rest)
    if 0 < n then
      { kind := TokenType.OPERATOR, length := n, newlines := 0, reason := "" }
    else
      { kind := TokenType.ERROR, length := 1, newlines := 0,
        reason := "unexpected character" }

/-- Modelled from the spec: `scanToken` (`nextToken`) of the absent `scanner.c`, steps
1 to 4 of section 4.1: skip whitespace and comments, set `start`, return `EOF` at the
end of the source without advancing, otherwise consume one lexical unit; the token
carries the line on which it starts. -/
def scanToken (lx : Lexicon) (s : Scanner) : Token × Scanner :=
  let skipped := skipWhitespace false (s.source.drop s.current)
  let start := s.current + skipped.1
  let line := s.line + skipped.2
  match s.source.drop start with
  | [] =>
    ({ kind := TokenType.EOF, start := start, length := 0, line := line, reason := "" },
     { source := s.source, start := start, current := start, line := line })
  | c :: rest =>
    let unit := lexUnit lx c rest
    ({ kind := unit.kind, start := start, length := unit.length, line := line,
       reason := unit.reason },
     { source := s.source, start := start, current := start + unit.length,
       line := line + unit.newlines })

/-- Modelled from the spec: the absent scanner as an implementation of the interface
`compile` uses, for a given lexicon. -/
def specScanner (lx : Lexicon) : ScannerApi Scanner :=
  { initScanner := initScanner, scanToken := scanToken lx }

/-- Lexeme of a token: the slice of the source it spans. -/
def Token.lexeme (t : Token) (source : List Char) : List Char :=
  (source.drop t.start).take t.length

/-- Number of newline characters in a piece of text. -/
def newlines (text : List Char) : Nat :=
  (text.filter fun c => c == '\n').length

/-- Number of newline characters in the slice `[a, b)` of the source. -/
def newlinesBetween (source : List Char) (a b : Nat) : Nat :=
  newlines ((source.drop a).take (b - a))

/-- The Lox tables, a concrete lexicon for evaluating the reference scanner. -/
def loxLexicon : Lexicon :=
  { keywords := ["and", "class", "else", "false", "for", "fun", "if", "nil", "or",
      "print", "return", "super", "this", "true", "var", "while"].map String.toList,
    operators := ["(", ")", "\x7b", "\x7d", ",", ".", "-", "+", ";", "/", "*", "!", "!=",
      "=", "==", ">", ">=", "<", "<="].map String.toList,
    valid := by decide }

/-- The reference scanner over the Lox tables. -/
def loxScanner : ScannerApi Scanner :=
  specScanner loxLexicon

/-- The `EOF` token the reference scanner returns at offset `pos` on line `line`. -/
def eofToken (pos : Nat) (line : Int) : Token :=
  { kind := TokenType.EOF, start := pos, length := 0, line := line, reason := "" }

/-! ## Basic facts about the loop -/

section Driver

variable {σ : Type} (api : ScannerApi σ) (source : String)

theorem loopFor_running {α : Type} (body : α → Ctl α) (f : α → α)
    (h : ∀ s, body s = Ctl.next (f s)) (n : Nat) (s : α) :
    loopFor body n s = Run.running (f^[n] s) := by
  induction n generalizing s with
  | zero => rfl
  | succ n ih => simp [loopFor, h, ih]

theorem compileBody_eq (st : CompileState σ) :
    compileBody api st = Ctl.next (bodyState api st) := by
  unfold compileBody bodyState
  by_cases h : (api.scanToken st.scanner).1.line = st.line
  · simp [h]
  · simp [h]

theorem compile_running (n : Nat) :
    compile api source n = Run.running ((bodyState api)^[n] (compileInit api source)) :=
  loopFor_running _ _ (compileBody_eq api) n _

theorem iterate_bodyState (n : Nat) :
    (bodyState api)^[n] (compileInit api source) =
      { scanner := scannerAt api source n,
        line := prevLine api source n,
        trace := traceAfter api source n } := by
  induction n with
  | zero => rfl
  | succ n ih =>
    rw [Function.iterate_succ_apply', ih]
    simp [bodyState, scannerAt, prevLine, traceAfter, iterEvents, tokenAt]

theorem compile_state (n : Nat) :
    compile api source n = Run.running
      { scanner := scannerAt api source n,
        line := prevLine api source n,
        trace := traceAfter api source n } := by
  rw [compile_running, iterate_bodyState]

theorem compile_trace (n : Nat) :
    (compile api source n).state.trace = traceAfter api source n := by
  rw [compile_state]; rfl

theorem compile_line (n : Nat) :
    (compile api source n).state.line = prevLine api source n := by
  rw [compile_state]; rfl

theorem traceAfter_length (n : Nat) : (traceAfter api source n).length = 2 * n + 1 := by
  induction n with
  | zero => rfl
  | succ n ih => simp [traceAfter, iterEvents, ih]; omega

theorem traceAfter_eq_cons (n : Nat) :
    ∃ rest, traceAfter api source n = Event.initScanner source :: rest ∧
      ∀ e ∈ rest, ∀ s, e ≠ Event.initScanner s := by
  induction n with
  | zero => exact ⟨[], rfl, by simp⟩
  | succ n ih =>
    obtain ⟨rest, h1, h2⟩ := ih
    refine ⟨rest ++ iterEvents api source n, by simp [traceAfter, h1], ?_⟩
    intro e he s
    rcases List.mem_append.mp he with h | h
    · exact h2 e h s
    · simp only [iterEvents, List.mem_cons, List.mem_singleton, List.not_mem_nil,
        or_false] at h
      rcases h with h | h
      · rw [h]; simp
      · rw [h]; split <;> simp

theorem scannedTokens_traceAfter (n : Nat) :
    scannedTokens (traceAfter api source n) = (List.range n).map (tokenAt api source) := by
  induction n with
  | zero => rfl
  | succ n ih =>
    have h : scannedTokens (iterEvents api source n) = [tokenAt api source n] := by
      unfold scannedTokens iterEvents
      split <;> simp [List.filterMap]
    unfold scannedTokens at ih h ⊢
    rw [traceAfter, List.filterMap_append, ih, h, List.range_succ, List.map_append]
    rfl

theorem text_printf_line (v : Int) :
    Event.text (Event.printf "%4d " [v]) = String.mk (fmt4d v ++ [' ']) := by
  simp [Event.text, formatC]

theorem text_printf_bar : Event.text (Event.printf "   | " []) = "   | " := by
  decide

theorem stdout_append (a b : List Event) : stdout (a ++ b) = stdout a ++ stdout b := by
  apply String.ext
  simp [stdout, String.join_eq]

theorem stdout_iterEvents (i : Nat) :
    stdout (iterEvents api source i) =
      linePrefix (prevLine api source i) (tokenAt api source i).line := by
  unfold iterEvents linePrefix
  apply String.ext
  by_cases h : (tokenAt api source i).line = prevLine api source i
  · simp [stdout, String.join_eq, h, Event.text, formatC]
  · simp [stdout, String.join_eq, h, Event.text, formatC]

theorem stdout_traceAfter (n : Nat) :
    stdout (traceAfter api source n) =
      String.join ((List.range n).map fun i =>
        linePrefix (prevLine api source i) (tokenAt api source i).line) := by
  induction n with
  | zero => rfl
  | succ n ih =>
    rw [traceAfter, stdout_append, ih, stdout_iterEvents, List.range_succ]
    apply String.ext
    simp [String.join_eq]

end Driver

/-! ## Width of the `%4d` column -/

theorem decDigits_length_le (k : Nat) :
    ∀ fuel n, n < 10 ^ (k + 1) → (decDigits fuel n).length ≤ k + 1 := by
  induction k with
  | zero =>
    intro fuel n hn
    cases fuel with
    | zero => simp [decDigits]
    | succ f =>
      have h10 : n < 10 := by simpa using hn
      simp [decDigits, h10]
  | succ k ih =>
    intro fuel n hn
    cases fuel with
    | zero => simp [decDigits]
    | succ f =>
      unfold decDigits
      by_cases h10 : n < 10
      · simp [h10]
      · have hdiv : n / 10 < 10 ^ (k + 1) := by
          rw [Nat.div_lt_iff_lt_mul (by norm_num)]
          rw [pow_succ] at hn
          exact hn
        have := ih f (n / 10) hdiv
        simp [h10]
        omega

theorem decDigits_length_ge (k : Nat) :
    ∀ fuel n, n < fuel → 10 ^ k ≤ n → k + 1 ≤ (decDigits fuel n).length := by
  induction k with
  | zero =>
    intro fuel n hf _
    cases fuel with
    | zero => omega
    | succ f =>
      unfold decDigits
      by_cases h10 : n < 10
      · simp [h10]
      · simp [h10]
  | succ k ih =>
    intro fuel n hf hn
    cases fuel with
    | zero => omega
    | succ f =>
      have hpos : 1 ≤ 10 ^ k := Nat.one_le_pow _ _ (by norm_num)
      have h10 : ¬ n < 10 := by
        rw [pow_succ] at hn
        omega
      have hdiv : 10 ^ k ≤ n / 10 := by
        rw [Nat.le_div_iff_mul_le (by norm_num)]
        rw [pow_succ] at hn
        exact hn
      have hlt : n / 10 < f := by omega
      have := ih f (n / 10) hlt hdiv
      unfold decDigits
      simp [h10]
      omega

theorem fmtD_length_small (v : Int) (h1 : 1 ≤ v) (h2 : v ≤ 9999) :
    1 ≤ (fmtD v).length ∧ (fmtD v).length ≤ 4 := by
  have hneg : ¬ v < 0 := by omega
  have hle := decDigits_length_le 3 (v.natAbs + 1) v.natAbs (by omega)
  have hge := decDigits_length_ge 0 (v.natAbs + 1) v.natAbs (by omega) (by omega)
  simp only [fmtD, hneg, if_false]
  omega

theorem fmtD_length_large (v : Int) (h : 10000 ≤ v) : 5 ≤ (fmtD v).length := by
  have hneg : ¬ v < 0 := by omega
  have hge := decDigits_length_ge 4 (v.natAbs + 1) v.natAbs (by omega) (by omega)
  simp only [fmtD, hneg, if_false]
  omega

theorem fmt4d_length_small (v : Int) (h1 : 1 ≤ v) (h2 : v ≤ 9999) :
    (fmt4d v).length = 4 := by
  have := fmtD_length_small v h1 h2
  simp [fmt4d]
  omega

theorem fmt4d_length_large (v : Int) (h : 10000 ≤ v) : 5 ≤ (fmt4d v).length := by
  have := fmtD_length_large v h
  simp [fmt4d]
  omega

theorem linePrefix_length (prev v : Int) (h1 : 1 ≤ v) (h2 : v ≤ 9999) :
    (linePrefix prev v).length = 5 := by
  unfold linePrefix
  by_cases h : v = prev
  · simp [h]; decide
  · simp [h, String.length, fmt4d_length_small v h1 h2]

theorem fmtD_infix_fmt4d (v : Int) : fmtD v <:+: fmt4d v ++ [' '] := by
  unfold fmt4d
  exact ⟨List.replicate (4 - (fmtD v).length) ' ', [' '], by simp⟩

/-! ## Which iterations print a line number -/

section Printed

variable {σ : Type} (api : ScannerApi σ) (source : String)

theorem traceAfter_getLast (i : Nat) :
    (traceAfter api source (i + 1)).getLast? =
      some (if (tokenAt api source i).line ≠ prevLine api source i then
        Event.printf "%4d " [(tokenAt api source i).line]
      else Event.printf "   | " []) := by
  simp [traceAfter, iterEvents, List.getLast?_append]

theorem printedLines_succ (n : Nat) :
    printedLines (traceAfter api source (n + 1)) =
      printedLines (traceAfter api source n) ++
        (if (tokenAt api source n).line ≠ prevLine api source n then
          [(tokenAt api source n).line] else []) := by
  unfold printedLines
  rw [traceAfter, List.filterMap_append]
  congr 1
  by_cases h : (tokenAt api source n).line = prevLine api source n
  · simp [iterEvents, h, List.filterMap, Event.lineArg]
  · simp [iterEvents, h, List.filterMap, Event.lineArg]

theorem changed_iff_first (n i : Nat) (hi : i < n)
    (hmono : ∀ i j, i ≤ j → j < n →
      (tokenAt api source i).line ≤ (tokenAt api source j).line)
    (hpos : ∀ i, i < n → 1 ≤ (tokenAt api source i).line) :
    (tokenAt api source i).line ≠ prevLine api source i ↔
      ∀ j, j < i → (tokenAt api source j).line ≠ (tokenAt api source i).line := by
  cases i with
  | zero =>
    have := hpos 0 hi
    simp only [prevLine]
    constructor
    · intro _ j hj; omega
    · intro _; omega
  | succ m =>
    simp only [prevLine]
    constructor
    · intro hne j hj
      have h1 := hmono j m (by omega) (by omega)
      have h2 := hmono m (m + 1) (by omega) hi
      omega
    · intro h heq
      exact h m (by omega) heq.symm

theorem printedLines_invariant (n : Nat)
    (hmono : ∀ i j, i ≤ j → j < n →
      (tokenAt api source i).line ≤ (tokenAt api source j).line)
    (hpos : ∀ i, i < n → 1 ≤ (tokenAt api source i).line) :
    List.Pairwise (fun a b => a < b) (printedLines (traceAfter api source n)) ∧
    (∀ l, l ∈ printedLines (traceAfter api source n) →
      ∃ i, i < n ∧ (tokenAt api source i).line = l) ∧
    (∀ i, i < n → (tokenAt api source i).line ∈ printedLines (traceAfter api source n)) := by
  induction n with
  | zero =>
    refine ⟨?_, ?_, ?_⟩
    · simp [printedLines, traceAfter, Event.lineArg]
    · simp [printedLines, traceAfter, Event.lineArg]
    · intro i hi; omega
  | succ n ih =>
    obtain ⟨hsorted, hsound, hcomplete⟩ :=
      ih (fun i j hij hj => hmono i j hij (by omega)) (fun i hi => hpos i (by omega))
    rw [printedLines_succ]
    by_cases h : (tokenAt api source n).line = prevLine api source n
    · have hn : ∃ m, n = m + 1 := by
        cases n with
        | zero =>
          have := hpos 0 (by omega)
          simp only [prevLine] at h
          omega
        | succ m => exact ⟨m, rfl⟩
      obtain ⟨m, rfl⟩ := hn
      simp only [prevLine] at h
      simp only [prevLine, h, ne_eq, not_true_eq_false, if_false, List.append_nil]
      refine ⟨hsorted, ?_, ?_⟩
      · intro l hl
        obtain ⟨i, hi, e⟩ := hsound l hl
        exact ⟨i, by omega, e⟩
      · intro i hi
        by_cases him : i < m + 1
        · exact hcomplete i him
        · have : i = m + 1 := by omega
          subst this
          rw [h]
          exact hcomplete m (by omega)
    · simp only [ne_eq, h, not_false_eq_true, if_true]
      refine ⟨?_, ?_, ?_⟩
      · rw [List.pairwise_append]
        refine ⟨hsorted, by simp, ?_⟩
        intro a ha b hb
        simp only [List.mem_singleton] at hb
        subst hb
        obtain ⟨i, hi, e⟩ := hsound a ha
        subst e
        cases n with
        | zero => omega
        | succ m =>
          simp only [prevLine] at h
          have h1 := hmono i m (by omega) (by omega)
          have h2 := hmono m (m + 1) (by omega) (by omega)
          omega
      · intro l hl
        rcases List.mem_append.mp hl with hl | hl
        · obtain ⟨i, hi, e⟩ := hsound l hl
          exact ⟨i, by omega, e⟩
        · simp only [List.mem_singleton] at hl
          exact ⟨n, by omega, hl.symm⟩
      · intro i hi
        by_cases hin : i < n
        · exact List.mem_append_left _ (hcomplete i hin)
        · have : i = n := by omega
          subst this
          exact List.mem_append_right _ (by simp)

end Printed

/-! ## The reference scanner: shape of one `scanToken` call -/

theorem skipWhitespace_nil (b : Bool) : skipWhitespace b [] = (0, 0) := by
  cases b <;> rfl

theorem scanToken_eof (lx : Lexicon) (s : Scanner)
    (h : s.source.drop (s.current + (skipWhitespace false (s.source.drop s.current)).1) = []) :
    scanToken lx s =
      ({ kind := TokenType.EOF,
         start := s.current + (skipWhitespace false (s.source.drop s.current)).1,
         length := 0,
         line := s.line + (skipWhitespace false (s.source.drop s.current)).2,
         reason := "" },
       { source := s.source,
         start := s.current + (skipWhitespace false (s.source.drop s.current)).1,
         current := s.current + (skipWhitespace false (s.source.drop s.current)).1,
         line := s.line + (skipWhitespace false (s.source.drop s.current)).2 }) := by
  simp only [scanToken]
  rw [h]

theorem scanToken_cons (lx : Lexicon) (s : Scanner) (c : Char) (rest : List Char)
    (h : s.source.drop (s.current + (skipWhitespace false (s.source.drop s.current)).1)
      = c :: rest) :
    scanToken lx s =
      ({ kind := (lexUnit lx c rest).kind,
         start := s.current + (skipWhitespace false (s.source.drop s.current)).1,
         length := (lexUnit lx c rest).length,
         line := s.line + (skipWhitespace false (s.source.drop s.current)).2,
         reason := (lexUnit lx c rest).reason },
       { source := s.source,
         start := s.current + (skipWhitespace false (s.source.drop s.current)).1,
         current := s.current + (skipWhitespace false (s.source.drop s.current)).1
           + (lexUnit lx c rest).length,
         line := s.line + (skipWhitespace false (s.source.drop s.current)).2
           + (lexUnit lx c rest).newlines }) := by
  simp only [scanToken]
  rw [h]

theorem runLength_pos_of_head (p : Char → Bool) (c : Char) (rest : List Char)
    (h : p c = true) : 1 ≤ runLength p (c :: rest) := by
  simp [runLength, h]

theorem numberLength_pos (c : Char) (rest : List Char) (h : isDigit c = true) :
    1 ≤ numberLength (c :: rest) := by
  have h1 := runLength_pos_of_head isDigit c rest h
  unfold numberLength
  simp only
  split
  · split <;> omega
  · exact h1

theorem lexUnit_alpha (lx : Lexicon) (c : Char) (rest : List Char)
    (ha : isAlpha c = true) :
    lexUnit lx c rest =
      { kind := if (c :: rest).take (runLength isAlphaNum rest + 1) ∈ lx.keywords then
          TokenType.KEYWORD else TokenType.IDENTIFIER,
        length := runLength isAlphaNum rest + 1, newlines := 0, reason := "" } := by
  simp only [lexUnit, ha, if_true]

theorem lexUnit_digit (lx : Lexicon) (c : Char) (rest : List Char)
    (ha : isAlpha c = false) (hd : isDigit c = true) :
    lexUnit lx c rest =
      { kind := TokenType.NUMBER, length := numberLength (c :: rest),
        newlines := 0, reason := "" } := by
  simp [lexUnit, ha, hd]

theorem lexUnit_string (lx : Lexicon) (c : Char) (rest : List Char)
    (ha : isAlpha c = false) (hd : isDigit c = false) (hq : c = '"') :
    lexUnit lx c rest =
      { kind := if (stringBody rest).closed then TokenType.STRING else TokenType.ERROR,
        length := (stringBody rest).length + 1,
        newlines := (stringBody rest).newlines,
        reason := if (stringBody rest).closed then "" else "unterminated string" } := by
  subst hq
  simp only [lexUnit, ha, hd, if_true, Bool.false_eq_true, if_false]
  cases (stringBody rest).closed <;> simp

theorem lexUnit_other (lx : Lexicon) (c : Char) (rest : List Char)
    (ha : isAlpha c = false) (hd : isDigit c = false) (hq : c ≠ '"') :
    lexUnit lx c rest =
      if 0 < longestOperator lx.operators (c :: rest) then
        { kind := TokenType.OPERATOR, length := longestOperator lx.operators (c :: rest),
          newlines := 0, reason := "" }
      else
        { kind := TokenType.ERROR, length := 1, newlines := 0,
          reason := "unexpected character" } := by
  simp [lexUnit, ha, hd, hq]

theorem lexUnit_length_pos (lx : Lexicon) (c : Char) (rest : List Char) :
    1 ≤ (lexUnit lx c rest).length := by
  cases ha : isAlpha c with
  | true => rw [lexUnit_alpha lx c rest ha]; simp
  | false =>
    cases hd : isDigit c with
    | true => rw [lexUnit_digit lx c rest ha hd]; exact numberLength_pos c rest hd
    | false =>
      by_cases hq : c = '"'
      · rw [lexUnit_string lx c rest ha hd hq]; simp
      · rw [lexUnit_other lx c rest ha hd hq]
        split
        · assumption
        · simp

theorem lexUnit_kind_ne_eof (lx : Lexicon) (c : Char) (rest : List Char) :
    (lexUnit lx c rest).kind ≠ TokenType.EOF := by
  cases ha : isAlpha c with
  | true => rw [lexUnit_alpha lx c rest ha]; simp only; split <;> simp
  | false =>
    cases hd : isDigit c with
    | true => rw [lexUnit_digit lx c rest ha hd]; simp
    | false =>
      by_cases hq : c = '"'
      · rw [lexUnit_string lx c rest ha hd hq]; simp only; split <;> simp
      · rw [lexUnit_other lx c rest ha hd hq]
        split <;> simp

/-! ## The reference scanner: progress -/

theorem scanToken_source (lx : Lexicon) (s : Scanner) :
    (scanToken lx s).2.source = s.source := by
  cases h : s.source.drop (s.current + (skipWhitespace false (s.source.drop s.current)).1) with
  | nil => rw [scanToken_eof lx s h]
  | cons c rest => rw [scanToken_cons lx s c rest h]

theorem scanToken_start (lx : Lexicon) (s : Scanner) :
    (scanToken lx s).1.start =
      s.current + (skipWhitespace false (s.source.drop s.current)).1 := by
  cases h : s.source.drop (s.current + (skipWhitespace false (s.source.drop s.current)).1) with
  | nil => rw [scanToken_eof lx s h]
  | cons c rest => rw [scanToken_cons lx s c rest h]

theorem scanToken_current_ge (lx : Lexicon) (s : Scanner) :
    (scanToken lx s).1.start ≤ (scanToken lx s).2.current := by
  cases h : s.source.drop (s.current + (skipWhitespace false (s.source.drop s.current)).1) with
  | nil => rw [scanToken_eof lx s h]
  | cons c rest => rw [scanToken_cons lx s c rest h]; simp

theorem scanToken_not_eof (lx : Lexicon) (s : Scanner)
    (h : (scanToken lx s).1.kind ≠ TokenType.EOF) :
    s.current < (scanToken lx s).2.current ∧ s.current < s.source.length := by
  cases hd : s.source.drop (s.current + (skipWhitespace false (s.source.drop s.current)).1) with
  | nil => rw [scanToken_eof lx s hd] at h; simp at h
  | cons c rest =>
    rw [scanToken_cons lx s c rest hd]
    have hpos := lexUnit_length_pos lx c rest
    have hlen : s.current + (skipWhitespace false (s.source.drop s.current)).1
        < s.source.length := by
      by_contra hge
      rw [List.drop_eq_nil_of_le (by omega)] at hd
      exact List.noConfusion hd
    constructor
    · simp only; omega
    · omega

theorem scanToken_is_eof (lx : Lexicon) (s : Scanner)
    (h : (scanToken lx s).1.kind = TokenType.EOF) :
    s.source.drop (s.current + (skipWhitespace false (s.source.drop s.current)).1) = [] := by
  cases hd : s.source.drop (s.current + (skipWhitespace false (s.source.drop s.current)).1) with
  | nil => rfl
  | cons c rest =>
    rw [scanToken_cons lx s c rest hd] at h
    exact absurd h (lexUnit_kind_ne_eof lx c rest)

theorem scanToken_progress (lx : Lexicon) (s : Scanner) :
    s.current < (scanToken lx s).2.current ∨
      ((scanToken lx s).1.kind = TokenType.EOF ∧
        (scanToken lx s).2.current = s.current) := by
  by_cases h : (scanToken lx s).1.kind = TokenType.EOF
  · have hd := scanToken_is_eof lx s h
    by_cases hk : (skipWhitespace false (s.source.drop s.current)).1 = 0
    · right
      refine ⟨h, ?_⟩
      rw [scanToken_eof lx s hd]
      simp [hk]
    · left
      rw [scanToken_eof lx s hd]
      simp only
      omega
  · exact Or.inl (scanToken_not_eof lx s h).1

theorem scanToken_at_end (lx : Lexicon) (src : List Char) (st pos : Nat) (ln : Int)
    (h : src.drop pos = []) :
    scanToken lx { source := src, start := st, current := pos, line := ln } =
      ({ kind := TokenType.EOF, start := pos, length := 0, line := ln, reason := "" },
       { source := src, start := pos, current := pos, line := ln }) := by
  have h0 : (skipWhitespace false
      (({ source := src, start := st, current := pos, line := ln } : Scanner).source.drop
        ({ source := src, start := st, current := pos, line := ln } : Scanner).current))
      = (0, 0) := by
    show skipWhitespace false (src.drop pos) = (0, 0)
    rw [h, skipWhitespace_nil]
  rw [scanToken_eof lx _ (by rw [h0]; exact h), h0]
  simp

theorem scanToken_eof_stable (lx : Lexicon) (s : Scanner)
    (h : (scanToken lx s).1.kind = TokenType.EOF) :
    scanToken lx (scanToken lx s).2 = scanToken lx s := by
  have hd := scanToken_is_eof lx s h
  rw [scanToken_eof lx s hd]
  exact scanToken_at_end lx _ _ _ _ hd

section Stream

variable (lx : Lexicon) (source : String)

theorem scannerAt_source (i : Nat) :
    (scannerAt (specScanner lx) source i).source = source.toList := by
  induction i with
  | zero => rfl
  | succ i ih =>
    show (scanToken lx (scannerAt (specScanner lx) source i)).2.source = _
    rw [scanToken_source, ih]

theorem scannerAt_succ (i : Nat) :
    scannerAt (specScanner lx) source (i + 1) =
      (scanToken lx (scannerAt (specScanner lx) source i)).2 := rfl

theorem tokenAt_spec (i : Nat) :
    tokenAt (specScanner lx) source i =
      (scanToken lx (scannerAt (specScanner lx) source i)).1 := rfl

theorem current_ge_of_no_eof (k : Nat)
    (h : ∀ j, j < k → (tokenAt (specScanner lx) source j).kind ≠ TokenType.EOF) :
    k ≤ (scannerAt (specScanner lx) source k).current := by
  induction k with
  | zero => exact Nat.zero_le _
  | succ k ih =>
    have h1 := ih (fun j hj => h j (by omega))
    have h2 := (scanToken_not_eof lx _ (h k (by omega))).1
    rw [scannerAt_succ]
    omega

theorem eof_within_length :
    ∃ k, k ≤ source.toList.length ∧
      (tokenAt (specScanner lx) source k).kind = TokenType.EOF := by
  by_contra hne
  have hall : ∀ j, j ≤ source.toList.length →
      (tokenAt (specScanner lx) source j).kind ≠ TokenType.EOF := by
    intro j hj heq
    exact hne ⟨j, hj, heq⟩
  have h1 := current_ge_of_no_eof lx source source.toList.length
    (fun j hj => hall j (by omega))
  have h2 := (scanToken_not_eof lx _ (hall source.toList.length (le_refl _))).2
  rw [scannerAt_source] at h2
  omega

theorem eof_forever (i : Nat)
    (h : (tokenAt (specScanner lx) source i).kind = TokenType.EOF) (j : Nat) :
    scanToken lx (scannerAt (specScanner lx) source (i + j)) =
      scanToken lx (scannerAt (specScanner lx) source i) := by
  induction j with
  | zero => rfl
  | succ j ih =>
    rw [← Nat.add_assoc, scannerAt_succ, ih]
    exact scanToken_eof_stable lx _ h

end Stream

/-! ## The reference scanner: line counting -/

theorem newlines_nil : newlines [] = 0 := rfl

theorem newlines_cons (c : Char) (l : List Char) :
    newlines (c :: l) = (if c = '\n' then 1 else 0) + newlines l := by
  by_cases h : c = '\n'
  · simp [newlines, h]; omega
  · simp [newlines, h]

theorem newlines_append (a b : List Char) :
    newlines (a ++ b) = newlines a + newlines b := by
  simp [newlines]

theorem newlines_eq_zero (l : List Char) (h : ∀ x ∈ l, x ≠ '\n') : newlines l = 0 := by
  induction l with
  | nil => rfl
  | cons c l ih =>
    rw [newlines_cons, ih (fun x hx => h x (List.mem_cons_of_mem _ hx))]
    simp [h c (List.mem_cons_self _ _)]

theorem newlines_take_add (l : List Char) (a b : Nat) :
    newlines (l.take (a + b)) = newlines (l.take a) + newlines ((l.drop a).take b) := by
  rw [List.take_add, newlines_append]

theorem skip_true_newline (rest : List Char) :
    skipWhitespace true ('\n' :: rest) =
      ((skipWhitespace false rest).1 + 1, (skipWhitespace false rest).2 + 1) := by
  simp [skipWhitespace]

theorem skip_true_other (c : Char) (rest : List Char) (hc : c ≠ '\n') :
    skipWhitespace true (c :: rest) =
      ((skipWhitespace true rest).1 + 1, (skipWhitespace true rest).2) := by
  simp [skipWhitespace, hc]

theorem skip_false_blank (c : Char) (rest : List Char)
    (hs : c = ' ' ∨ c = '\r' ∨ c = '\t') :
    skipWhitespace false (c :: rest) =
      ((skipWhitespace false rest).1 + 1, (skipWhitespace false rest).2) := by
  rw [skipWhitespace.eq_def]
  simp only [hs, if_true]

theorem skip_false_newline (rest : List Char) :
    skipWhitespace false ('\n' :: rest) =
      ((skipWhitespace false rest).1 + 1, (skipWhitespace false rest).2 + 1) := by
  rw [skipWhitespace.eq_def]
  simp

theorem skip_false_comment (rest : List Char) :
    skipWhitespace false ('/' :: '/' :: rest) =
      ((skipWhitespace true rest).1 + 2, (skipWhitespace true rest).2) := by
  simp [skipWhitespace]

theorem skip_false_stop (c : Char) (rest : List Char)
    (hs : ¬ (c = ' ' ∨ c = '\r' ∨ c = '\t')) (hn : c ≠ '\n')
    (hcm : c = '/' → ∀ rest', rest ≠ '/' :: rest') :
    skipWhitespace false (c :: rest) = (0, 0) := by
  rw [skipWhitespace.eq_def]
  simp only [hs, hn, if_false]
  by_cases hsl : c = '/'
  · simp only [hsl, if_true]
    cases rest with
    | nil => rfl
    | cons d rest' =>
      have : d ≠ '/' := by
        intro hd
        exact hcm hsl rest' (by rw [hd])
      simp [this]
  · simp [hsl]

theorem skip_false_cases (c : Char) (rest : List Char) :
    (c = ' ' ∨ c = '\r' ∨ c = '\t') ∨ c = '\n' ∨ (∃ rest', c = '/' ∧ rest = '/' :: rest') ∨
      skipWhitespace false (c :: rest) = (0, 0) := by
  by_cases hs : c = ' ' ∨ c = '\r' ∨ c = '\t'
  · exact Or.inl hs
  · by_cases hn : c = '\n'
    · exact Or.inr (Or.inl hn)
    · by_cases hcm : ∃ rest', c = '/' ∧ rest = '/' :: rest'
      · exact Or.inr (Or.inr (Or.inl hcm))
      · refine Or.inr (Or.inr (Or.inr (skip_false_stop c rest hs hn ?_)))
        intro hsl rest' hr
        exact hcm ⟨rest', hsl, hr⟩

theorem blank_ne_newline (c : Char) (hs : c = ' ' ∨ c = '\r' ∨ c = '\t') : c ≠ '\n' := by
  rcases hs with h | h | h <;> (rw [h]; decide)

theorem skipWhitespace_newlines (n : Nat) :
    ∀ (input : List Char) (b : Bool), input.length ≤ n →
      (skipWhitespace b input).2 = newlines (input.take (skipWhitespace b input).1) := by
  induction n with
  | zero =>
    intro input b h
    have : input = [] := List.length_eq_zero.mp (by omega)
    subst this
    rw [skipWhitespace_nil]; rfl
  | succ n ih =>
    intro input b h
    cases input with
    | nil => rw [skipWhitespace_nil]; rfl
    | cons c rest =>
      have hrest : rest.length ≤ n := by simpa using h
      cases b with
      | true =>
        by_cases hc : c = '\n'
        · subst hc
          rw [skip_true_newline]
          simp only [List.take_succ_cons, newlines_cons, if_true]
          rw [ih rest false hrest]; omega
        · rw [skip_true_other c rest hc]
          simp only [List.take_succ_cons, newlines_cons, hc, if_false]
          rw [ih rest true hrest]; omega
      | false =>
        rcases skip_false_cases c rest with hs | hn | ⟨rest', hsl, hr⟩ | hstop
        · rw [skip_false_blank c rest hs]
          simp only [List.take_succ_cons, newlines_cons, blank_ne_newline c hs, if_false]
          rw [ih rest false hrest]; omega
        · subst hn
          rw [skip_false_newline]
          simp only [List.take_succ_cons, newlines_cons, if_true]
          rw [ih rest false hrest]; omega
        · subst hsl hr
          have hrest' : rest'.length ≤ n := by
            simp at hrest; omega
          rw [skip_false_comment]
          simp only [List.take_succ_cons, newlines_cons]
          rw [ih rest' true hrest']
          simp
        · rw [hstop]; rfl

theorem skipWhitespace_stop (n : Nat) :
    ∀ (input : List Char) (b : Bool), input.length ≤ n →
      ∀ c rest, input.drop (skipWhitespace b input).1 = c :: rest → c ≠ '\n' := by
  induction n with
  | zero =>
    intro input b h c rest hd
    have : input = [] := List.length_eq_zero.mp (by omega)
    subst this
    simp at hd
  | succ n ih =>
    intro input b h c rest hd
    cases input with
    | nil => simp at hd
    | cons x xs =>
      have hxs : xs.length ≤ n := by simpa using h
      cases b with
      | true =>
        by_cases hx : x = '\n'
        · subst hx
          rw [skip_true_newline] at hd
          exact ih xs false hxs c rest hd
        · rw [skip_true_other x xs hx] at hd
          exact ih xs true hxs c rest hd
      | false =>
        rcases skip_false_cases x xs with hs | hn | ⟨rest', hsl, hr⟩ | hstop
        · rw [skip_false_blank x xs hs] at hd
          exact ih xs false hxs c rest hd
        · subst hn
          rw [skip_false_newline] at hd
          exact ih xs false hxs c rest hd
        · subst hsl hr
          have hrest' : rest'.length ≤ n := by
            simp at hxs; omega
          rw [skip_false_comment] at hd
          exact ih rest' true hrest' c rest hd
        · by_cases hx : x = '\n'
          · subst hx
            rw [skip_false_newline] at hstop
            simp at hstop
          · rw [hstop] at hd
            simp only [List.drop_zero, List.cons.injEq] at hd
            rw [← hd.1]; exact hx

/-! ## The reference scanner: newlines inside a lexeme -/

theorem runLength_take_all (p : Char → Bool) (l : List Char) :
    ∀ x ∈ l.take (runLength p l), p x = true := by
  induction l with
  | nil => simp [runLength]
  | cons c l ih =>
    intro x hx
    by_cases hc : p c = true
    · simp only [runLength, hc, if_true, List.take_succ_cons, List.mem_cons] at hx
      rcases hx with h | h
      · rw [h]; exact hc
      · exact ih x h
    · simp [runLength, hc] at hx

theorem isDigit_ne_newline (x : Char) (h : isDigit x = true) : x ≠ '\n' := by
  intro hx
  subst hx
  revert h
  decide

theorem isAlphaNum_ne_newline (x : Char) (h : isAlphaNum x = true) : x ≠ '\n' := by
  intro hx
  subst hx
  revert h
  decide

theorem isAlpha_ne_newline (x : Char) (h : isAlpha x = true) : x ≠ '\n' := by
  intro hx
  subst hx
  revert h
  decide

theorem isOperatorChar_ne_newline (x : Char) (h : isOperatorChar x = true) : x ≠ '\n' := by
  intro hx
  subst hx
  revert h
  decide

theorem newlines_take_run_digits (l : List Char) :
    newlines (l.take (runLength isDigit l)) = 0 :=
  newlines_eq_zero _ fun x hx => isDigit_ne_newline x (runLength_take_all isDigit l x hx)

theorem numberLength_newlines (input : List Char) :
    newlines (input.take (numberLength input)) = 0 := by
  unfold numberLength
  simp only
  split
  · rename_i d tl heq
    split
    · rw [Nat.add_assoc, newlines_take_add, newlines_take_run_digits, heq]
      rw [Nat.add_comm 1, List.take_succ_cons, newlines_cons]
      have hdrop : input.drop (runLength isDigit input + 1) = d :: tl := by
        rw [← List.drop_drop, heq]
        rfl
      rw [hdrop]
      have := newlines_take_run_digits (d :: tl)
      simp only [this]
      decide
    · exact newlines_take_run_digits input
  · exact newlines_take_run_digits input

theorem stringBody_newlines (n : Nat) :
    ∀ rest : List Char, rest.length ≤ n →
      (stringBody rest).newlines = newlines (rest.take (stringBody rest).length) := by
  induction n with
  | zero =>
    intro rest h
    have : rest = [] := List.length_eq_zero.mp (by omega)
    subst this
    rfl
  | succ n ih =>
    intro rest h
    cases rest with
    | nil => rfl
    | cons c rest =>
      have hrest : rest.length ≤ n := by simpa using h
      rw [stringBody.eq_def]
      simp only
      by_cases hq : c = '"'
      · subst hq
        simp [newlines]
      · by_cases hb : c = '\\'
        · subst hb
          cases rest with
          | nil => simp [newlines]
          | cons e rest' =>
            have hrest' : rest'.length ≤ n := by
              simp at hrest; omega
            simp only [hq, if_false, if_true, List.take_succ_cons, newlines_cons]
            rw [ih rest' hrest']
            simp
            omega
        · simp only [hq, hb, if_false, List.take_succ_cons, newlines_cons]
          rw [ih rest hrest]
          omega

theorem longestOperator_spec (ops : List (List Char)) (input : List Char) :
    longestOperator ops input = 0 ∨
      ∃ w, w ∈ ops ∧ w <+: input ∧ w.length = longestOperator ops input := by
  induction ops with
  | nil => left; rfl
  | cons w ws ih =>
    unfold longestOperator
    by_cases hp : w.isPrefixOf input = true
    · simp only [hp, if_true]
      rcases Nat.le_total w.length (longestOperator ws input) with hle | hle
      · rw [Nat.max_eq_right hle]
        rcases ih with h0 | ⟨v, hv, hpre, hlen⟩
        · by_cases hw : w.length = 0
          · left; omega
          · omega
        · right
          exact ⟨v, List.mem_cons_of_mem _ hv, hpre, hlen⟩
      · rw [Nat.max_eq_left hle]
        right
        exact ⟨w, List.mem_cons_self _ _, List.isPrefixOf_iff_prefix.mp hp, rfl⟩
    · simp only [hp, if_false]
      rcases ih with h0 | ⟨v, hv, hpre, hlen⟩
      · left; exact h0
      · right
        exact ⟨v, List.mem_cons_of_mem _ hv, hpre, hlen⟩

theorem longestOperator_ge (ops : List (List Char)) (input w : List Char)
    (hw : w ∈ ops) (hp : w <+: input) : w.length ≤ longestOperator ops input := by
  induction ops with
  | nil => simp at hw
  | cons v vs ih =>
    unfold longestOperator
    rcases List.mem_cons.mp hw with h | h
    · subst h
      simp only [List.isPrefixOf_iff_prefix.mpr hp, if_true]
      exact Nat.le_max_left _ _
    · have := ih h
      by_cases hv : v.isPrefixOf input = true
      · simp only [hv, if_true]
        exact le_trans this (Nat.le_max_right _ _)
      · simp only [hv, if_false]
        exact this

theorem validSpelling_chars (w : List Char) (h : validSpelling w = true) :
    ∀ x ∈ w, isOperatorChar x = true := by
  simp only [validSpelling, Bool.and_eq_true, List.all_eq_true] at h
  exact h.1.2

theorem lexUnit_newlines (lx : Lexicon) (c : Char) (rest : List Char) (hc : c ≠ '\n') :
    (lexUnit lx c rest).newlines =
      newlines ((c :: rest).take (lexUnit lx c rest).length) := by
  cases ha : isAlpha c with
  | true =>
    rw [lexUnit_alpha lx c rest ha]
    simp only [List.take_succ_cons, newlines_cons, hc, if_false]
    rw [newlines_eq_zero _ fun x hx =>
      isAlphaNum_ne_newline x (runLength_take_all isAlphaNum rest x hx)]
  | false =>
    cases hd : isDigit c with
    | true =>
      rw [lexUnit_digit lx c rest ha hd]
      exact (numberLength_newlines (c :: rest)).symm
    | false =>
      by_cases hq : c = '"'
      · rw [lexUnit_string lx c rest ha hd hq]
        simp only [List.take_succ_cons, newlines_cons, hc, if_false]
        rw [stringBody_newlines rest.length rest (le_refl _)]
        omega
      · rw [lexUnit_other lx c rest ha hd hq]
        split
        · rename_i hpos
          simp only
          rcases longestOperator_spec lx.operators (c :: rest) with h0 | ⟨w, hw, hpre, hlen⟩
          · omega
          · have hv := validSpelling_chars w (lx.valid w hw)
            rw [← hlen, ← List.prefix_iff_eq_take.mp hpre]
            exact (newlines_eq_zero w fun x hx => isOperatorChar_ne_newline x (hv x hx)).symm
        · simp only [List.take_succ_cons, List.take_zero, newlines_cons, hc, if_false]
          rfl

/-! ## The reference scanner: the line counter follows the cursor -/

theorem scanToken_line (lx : Lexicon) (s : Scanner)
    (hinv : s.line = 1 + (newlines (s.source.take s.current) : Int)) :
    (scanToken lx s).1.line =
        1 + (newlines (s.source.take (scanToken lx s).1.start) : Int) ∧
      (scanToken lx s).2.line =
        1 + (newlines ((scanToken lx s).2.source.take (scanToken lx s).2.current) : Int) := by
  have hskip := skipWhitespace_newlines (s.source.drop s.current).length
    (s.source.drop s.current) false (le_refl _)
  have hstart : newlines (s.source.take
      (s.current + (skipWhitespace false (s.source.drop s.current)).1)) =
      newlines (s.source.take s.current) +
        (skipWhitespace false (s.source.drop s.current)).2 := by
    rw [newlines_take_add, hskip]
  cases hd : s.source.drop (s.current + (skipWhitespace false (s.source.drop s.current)).1) with
  | nil =>
    rw [scanToken_eof lx s hd]
    simp only [hstart, hinv]
    push_cast
    constructor <;> ring
  | cons c rest =>
    have hc : c ≠ '\n' := by
      apply skipWhitespace_stop (s.source.drop s.current).length
        (s.source.drop s.current) false (le_refl _) c rest
      rw [List.drop_drop]
      exact hd
    have hunit := lexUnit_newlines lx c rest hc
    rw [scanToken_cons lx s c rest hd]
    simp only
    constructor
    · rw [hstart, hinv]
      push_cast
      ring
    · rw [newlines_take_add, hstart, hd, ← hunit, hinv]
      push_cast
      ring

section StreamLines

variable (lx : Lexicon) (source : String)

theorem scannerAt_line (i : Nat) :
    (scannerAt (specScanner lx) source i).line =
      1 + (newlines (source.toList.take (scannerAt (specScanner lx) source i).current) : Int) := by
  induction i with
  | zero => simp [scannerAt, specScanner, initScanner, newlines]
  | succ i ih =>
    have h := (scanToken_line lx (scannerAt (specScanner lx) source i)
      (by rw [scannerAt_source]; exact ih)).2
    rw [scanToken_source, scannerAt_source] at h
    exact h

theorem tokenAt_line (i : Nat) :
    (tokenAt (specScanner lx) source i).line =
      1 + (newlines (source.toList.take (tokenAt (specScanner lx) source i).start) : Int) := by
  have h := (scanToken_line lx (scannerAt (specScanner lx) source i)
    (by rw [scannerAt_source]; exact scannerAt_line lx source i)).1
  rw [scannerAt_source] at h
  exact h

theorem tokenAt_start_mono (i : Nat) :
    (tokenAt (specScanner lx) source i).start ≤
      (tokenAt (specScanner lx) source (i + 1)).start := by
  have h1 := scanToken_current_ge lx (scannerAt (specScanner lx) source i)
  have h2 := scanToken_start lx (scannerAt (specScanner lx) source (i + 1))
  rw [tokenAt_spec, tokenAt_spec, h2, scannerAt_succ]
  omega

end StreamLines

/-! ## The reference scanner: operators -/

theorem isOperatorChar_facts (c : Char) (h : isOperatorChar c = true) :
    ¬ (c = ' ' ∨ c = '\r' ∨ c = '\t') ∧ c ≠ '\n' ∧ isAlpha c = false ∧
      isDigit c = false ∧ c ≠ '"' := by
  simp only [isOperatorChar, isSpace, Bool.not_eq_true', Bool.or_eq_false_iff,
    beq_eq_false_iff_ne, ne_eq] at h
  obtain ⟨⟨⟨⟨⟨⟨h1, h2⟩, h3⟩, h4⟩, h5⟩, h6⟩, h7⟩ := h
  exact ⟨by tauto, h4, h5, h6, h7⟩

theorem scanToken_operator (lx : Lexicon) (s : Scanner) (a b : Char) (tl : List Char)
    (hcur : s.source.drop s.current = a :: b :: tl)
    (hop : [a, b] ∈ lx.operators) :
    scanToken lx s =
      ({ kind := TokenType.OPERATOR, start := s.current,
         length := longestOperator lx.operators (a :: b :: tl), line := s.line,
         reason := "" },
       { source := s.source, start := s.current,
         current := s.current + longestOperator lx.operators (a :: b :: tl),
         line := s.line }) ∧
    2 ≤ longestOperator lx.operators (a :: b :: tl) := by
  have hvalid := lx.valid [a, b] hop
  have hchars := validSpelling_chars [a, b] hvalid
  obtain ⟨hs, hn, ha, hd, hq⟩ := isOperatorChar_facts a (hchars a (by simp))
  have hcm : a = '/' → ∀ rest', b :: tl ≠ '/' :: rest' := by
    intro h1 rest' h2
    have hb : b = '/' := (List.cons.inj h2).1
    subst h1 hb
    revert hvalid
    decide
  have hskip : skipWhitespace false (s.source.drop s.current) = (0, 0) := by
    rw [hcur]
    exact skip_false_stop a (b :: tl) hs hn hcm
  have hdrop : s.source.drop
      (s.current + (skipWhitespace false (s.source.drop s.current)).1) = a :: b :: tl := by
    rw [hskip]; exact hcur
  have hpre : [a, b] <+: a :: b :: tl := ⟨tl, rfl⟩
  have hge : 2 ≤ longestOperator lx.operators (a :: b :: tl) :=
    longestOperator_ge lx.operators (a :: b :: tl) [a, b] hop hpre
  refine ⟨?_, hge⟩
  rw [scanToken_cons lx s a (b :: tl) hdrop, lexUnit_other lx a (b :: tl) ha hd hq, hskip,
    if_pos (by omega)]
  simp

theorem longestOperator_eq_two (lx : Lexicon) (a b : Char) (tl : List Char)
    (hop : [a, b] ∈ lx.operators)
    (hlong : ∀ w, w ∈ lx.operators → w <+: a :: b :: tl → w.length ≤ 2) :
    longestOperator lx.operators (a :: b :: tl) = 2 := by
  have hge : 2 ≤ longestOperator lx.operators (a :: b :: tl) :=
    longestOperator_ge lx.operators (a :: b :: tl) [a, b] hop ⟨tl, rfl⟩
  rcases longestOperator_spec lx.operators (a :: b :: tl) with h0 | ⟨w, hw, hwp, hwl⟩
  · omega
  · have := hlong w hw hwp
    omega

/-! ## Properties of `compile` -/

section CompileClaims

variable {σ : Type} (api : ScannerApi σ) (source : String)

theorem scannerAt_empty (lx : Lexicon) (i : Nat) :
    scannerAt (specScanner lx) "" i = initScanner "" := by
  induction i with
  | zero => rfl
  | succ i ih =>
    rw [scannerAt_succ, ih]
    show (scanToken lx { source := [], start := 0, current := 0, line := 1 }).2 = _
    rw [scanToken_at_end lx [] 0 0 1 rfl]
    rfl

theorem tokenAt_empty (lx : Lexicon) (i : Nat) :
    tokenAt (specScanner lx) "" i = eofToken 0 1 := by
  rw [tokenAt_spec, scannerAt_empty]
  show (scanToken lx { source := [], start := 0, current := 0, line := 1 }).1 = _
  rw [scanToken_at_end lx [] 0 0 1 rfl]
  rfl

theorem iterationOutput_eq (i : Nat) :
    iterationOutput api source i =
      linePrefix (prevLine api source i) (tokenAt api source i).line := by
  unfold iterationOutput
  rw [compile_trace, compile_trace, traceAfter, List.drop_left, stdout_iterEvents]

/-- C1 (code defect): `compile` does not stop at `EOF`.  For every scanner, source and
iteration budget the loop is still running, having made one `scanToken` call per
iteration; on the empty source, whose very first token is `EOF`, every one of those
calls returns `EOF`, so all but the first are made after `EOF` was observed. -/
theorem compile_runs_past_eof (lx : Lexicon) (fuel : Nat) :
    (∃ st, compile api source fuel = Run.running st ∧
      (scannedTokens st.trace).length = fuel) ∧
    (∃ st, compile (specScanner lx) "" fuel = Run.running st ∧
      scannedTokens st.trace = List.replicate fuel (eofToken 0 1)) := by
  refine ⟨⟨_, compile_state api source fuel, ?_⟩,
    ⟨_, compile_state (specScanner lx) "" fuel, ?_⟩⟩
  · simp [scannedTokens_traceAfter]
  · simp only [scannedTokens_traceAfter]
    apply List.ext_getElem
    · simp
    · intro n h1 h2
      simp [tokenAt_empty]

/-- C2 (as stated, refuted): on `"@@@"` the second token is an `ERROR` token on line 1
with reason `unexpected character`, yet the output `compile` produces for it is the
marker `"   | "`, which contains neither the line number nor the reason text. -/
theorem error_output_counterexample :
    (tokenAt loxScanner "@@@" 1).kind = TokenType.ERROR ∧
    (tokenAt loxScanner "@@@" 1).line = 1 ∧
    (tokenAt loxScanner "@@@" 1).reason = "unexpected character" ∧
    iterationOutput loxScanner "@@@" 1 = "   | " ∧
    ¬ (∀ i, (tokenAt loxScanner "@@@" i).kind = TokenType.ERROR →
        fmtD (tokenAt loxScanner "@@@" i).line <:+:
          (iterationOutput loxScanner "@@@" i).toList ∧
        (tokenAt loxScanner "@@@" i).reason.toList <:+:
          (iterationOutput loxScanner "@@@" i).toList) := by
  refine ⟨by decide, by decide, by decide, by decide, ?_⟩
  intro h
  have h1 := (h 1 (by decide)).1
  revert h1
  decide

/-- C2 (amended): for every token `scanToken` returns, `ERROR` tokens included, the
output `compile` produces for it is exactly the line prefix, a function of the token's
line and the previous token's line only: it contains the line number when the line
differs from that of the previously scanned token (`-1` before the first) and is the
marker `"   | "` otherwise. -/
theorem token_output_is_line_prefix (i : Nat) :
    iterationOutput api source i =
      linePrefix (prevLine api source i) (tokenAt api source i).line ∧
    ((tokenAt api source i).line ≠ prevLine api source i →
      fmtD (tokenAt api source i).line <:+: (iterationOutput api source i).toList) ∧
    ((tokenAt api source i).line = prevLine api source i →
      iterationOutput api source i = "   | ") := by
  rw [iterationOutput_eq]
  refine ⟨rfl, ?_, ?_⟩
  · intro h
    simp only [linePrefix, h, ne_eq, not_false_eq_true, if_true]
    exact fmtD_infix_fmt4d _
  · intro h
    simp [linePrefix, h]

theorem token_output_is_line_prefix_witness :
    iterationOutput loxScanner "@@@" 0 = linePrefix (-1) 1 ∧
    ((tokenAt loxScanner "@@@" 0).line ≠ prevLine loxScanner "@@@" 0 →
      fmtD (tokenAt loxScanner "@@@" 0).line <:+:
        (iterationOutput loxScanner "@@@" 0).toList) ∧
    ((tokenAt loxScanner "@@@" 0).line = prevLine loxScanner "@@@" 0 →
      iterationOutput loxScanner "@@@" 0 = "   | ") :=
  token_output_is_line_prefix loxScanner "@@@" 0

/-- C3: in the call trace of `compile(source)`, after any number of iterations,
`initScanner(source)` is the first event, no later event is an `initScanner` call (so
the scanner is created exactly once), the scanner the loop starts from is the one
created from `source`, and no `scanToken` call precedes it. -/
theorem initScanner_first_and_once (n : Nat) :
    (compile api source n).state.trace.head? = some (Event.initScanner source) ∧
    (∀ e, e ∈ (compile api source n).state.trace.tail → ∀ s, e ≠ Event.initScanner s) ∧
    initCalls (compile api source n).state.trace = 1 ∧
    (compile api source 0).state.scanner = api.initScanner source ∧
    scannedTokens (compile api source 0).state.trace = [] := by
  rw [compile_trace]
  obtain ⟨rest, h1, h2⟩ := traceAfter_eq_cons api source n
  rw [h1]
  refine ⟨rfl, fun e he s => h2 e he s, ?_, rfl, rfl⟩
  have hnil : (rest.filter fun e =>
      match e with
      | .initScanner _ => true
      | _ => false) = [] := by
    rw [List.filter_eq_nil_iff]
    intro e he
    cases e with
    | initScanner s => exact absurd rfl (h2 _ he s)
    | scanToken t => simp
    | printf f a => simp
  simp only [initCalls, List.filter_cons, if_true, List.length_cons, hnil, List.length_nil]

/-- C4: an `ERROR` token never stops `compile`.  In the iteration that scans an `ERROR`
token the loop body falls through to the next iteration (the loop is still running
afterwards), the next iteration requests the next token of the stream, and every
`ERROR` token of the stream is scanned in the one run, whatever precedes it. -/
theorem error_token_never_stops (i : Nat)
    (h : (tokenAt api source i).kind = TokenType.ERROR) :
    (∃ st, compileBody api (compile api source i).state = Ctl.next st ∧
      compile api source (i + 1) = Run.running st ∧
      (scannedTokens st.trace)[i]? = some (tokenAt api source i) ∧
      ((scannedTokens st.trace)[i]?.map Token.kind) = some TokenType.ERROR) ∧
    (∃ st, compile api source (i + 2) = Run.running st ∧
      (scannedTokens st.trace)[i + 1]? = some (tokenAt api source (i + 1))) ∧
    (∀ j, (tokenAt api source j).kind = TokenType.ERROR → ∀ n, j < n →
      ∃ st, compile api source n = Run.running st ∧
        (scannedTokens st.trace)[j]? = some (tokenAt api source j)) := by
  have hget : ∀ n j, j < n →
      (scannedTokens (traceAfter api source n))[j]? = some (tokenAt api source j) := by
    intro n j hj
    rw [scannedTokens_traceAfter]
    simp [hj]
  refine ⟨⟨bodyState api (compile api source i).state, compileBody_eq api _, ?_, ?_, ?_⟩,
    ⟨_, compile_state api source (i + 2), hget _ _ (by omega)⟩, ?_⟩
  · rw [compile_running, compile_running, Function.iterate_succ_apply']
    rfl
  · have hst : bodyState api (compile api source i).state =
        (compile api source (i + 1)).state := by
      rw [compile_running, compile_running, Function.iterate_succ_apply']
      rfl
    rw [hst, compile_trace]
    exact hget _ _ (by omega)
  · have hst : bodyState api (compile api source i).state =
        (compile api source (i + 1)).state := by
      rw [compile_running, compile_running, Function.iterate_succ_apply']
      rfl
    rw [hst, compile_trace, hget _ _ (by omega)]
    simp [h]
  · intro j _ n hj
    exact ⟨_, compile_state api source n, hget n j hj⟩

theorem error_token_never_stops_witness :
    (tokenAt loxScanner "@@@" 0).kind = TokenType.ERROR ∧
    (∃ st, compile loxScanner "@@@" 2 = Run.running st ∧
      (scannedTokens st.trace)[1]? = some (tokenAt loxScanner "@@@" 1)) :=
  ⟨by decide, (error_token_never_stops loxScanner "@@@" 0 (by decide)).2.1⟩

end CompileClaims

/-! ## Properties of the reference scanner -/

section ScannerClaims

variable (lx : Lexicon) (source : String)

/-- C5: progress of `scanToken`.  Each call either strictly advances `current` or
returns `EOF` at an unchanged position; `EOF` is returned within at most as many calls
as the source has characters (plus the call that returns it); and once a call has
returned `EOF`, every later call returns the same `EOF` token without advancing. -/
theorem scanToken_progress_eof :
    (∀ i, (scannerAt (specScanner lx) source i).current <
          (scannerAt (specScanner lx) source (i + 1)).current ∨
        ((tokenAt (specScanner lx) source i).kind = TokenType.EOF ∧
          (scannerAt (specScanner lx) source (i + 1)).current =
            (scannerAt (specScanner lx) source i).current)) ∧
    (∃ k, k ≤ source.toList.length ∧
      (tokenAt (specScanner lx) source k).kind = TokenType.EOF) ∧
    (∀ i, (tokenAt (specScanner lx) source i).kind = TokenType.EOF → ∀ j, i < j →
      (tokenAt (specScanner lx) source j).kind = TokenType.EOF ∧
      tokenAt (specScanner lx) source j = tokenAt (specScanner lx) source i ∧
      (scannerAt (specScanner lx) source (j + 1)).current =
        (scannerAt (specScanner lx) source j).current) := by
  refine ⟨fun i => scanToken_progress lx _, eof_within_length lx source, ?_⟩
  intro i hi j hij
  obtain ⟨d, rfl⟩ : ∃ d, j = i + d + 1 := ⟨j - i - 1, by omega⟩
  have h1 := eof_forever lx source i hi (d + 1)
  have h0 := eof_forever lx source i hi d
  have htok : tokenAt (specScanner lx) source (i + d + 1) =
      tokenAt (specScanner lx) source i := by
    rw [tokenAt_spec, tokenAt_spec]
    exact congrArg Prod.fst h1
  refine ⟨by rw [htok]; exact hi, htok, ?_⟩
  rw [scannerAt_succ lx source (i + d + 1), scannerAt_succ lx source (i + d)]
  exact congrArg (fun p => p.2.current) (h1.trans h0.symm)

theorem scanToken_progress_eof_witness :
    (tokenAt loxScanner "@@@" 3).kind = TokenType.EOF ∧
    ((tokenAt loxScanner "@@@" 5).kind = TokenType.EOF ∧
      tokenAt loxScanner "@@@" 5 = tokenAt loxScanner "@@@" 3 ∧
      (scannerAt loxScanner "@@@" 6).current = (scannerAt loxScanner "@@@" 5).current) :=
  ⟨by decide, (scanToken_progress_eof loxLexicon "@@@").2.2 3 (by decide) 5 (by decide)⟩

/-- C6: line monotonicity.  Successive tokens start at non-decreasing offsets, the line
of each token is at least the line of the token before it, and it exceeds it by exactly
the number of newline characters in the source between the two token starts (the
previous lexeme, strings included, and the whitespace and comments skipped after it). -/
theorem token_lines_monotone (i : Nat) :
    (tokenAt (specScanner lx) source i).start ≤
      (tokenAt (specScanner lx) source (i + 1)).start ∧
    (tokenAt (specScanner lx) source i).line ≤
      (tokenAt (specScanner lx) source (i + 1)).line ∧
    (tokenAt (specScanner lx) source (i + 1)).line =
      (tokenAt (specScanner lx) source i).line +
        (newlinesBetween source.toList (tokenAt (specScanner lx) source i).start
          (tokenAt (specScanner lx) source (i + 1)).start : Nat) := by
  have hmono := tokenAt_start_mono lx source i
  have hi := tokenAt_line lx source i
  have hs := tokenAt_line lx source (i + 1)
  have hsplit : newlines (source.toList.take (tokenAt (specScanner lx) source (i + 1)).start) =
      newlines (source.toList.take (tokenAt (specScanner lx) source i).start) +
        newlinesBetween source.toList (tokenAt (specScanner lx) source i).start
          (tokenAt (specScanner lx) source (i + 1)).start := by
    unfold newlinesBetween
    rw [← newlines_take_add, Nat.add_sub_cancel' hmono]
  have hfinal : (tokenAt (specScanner lx) source (i + 1)).line =
      (tokenAt (specScanner lx) source i).line +
        (newlinesBetween source.toList (tokenAt (specScanner lx) source i).start
          (tokenAt (specScanner lx) source (i + 1)).start : Nat) := by
    rw [hi, hs, hsplit]
    push_cast
    ring
  refine ⟨hmono, ?_, hfinal⟩
  rw [hfinal]
  omega

theorem token_lines_monotone_witness :
    (tokenAt loxScanner "a // x\n\"p\nq\" b" 1).kind = TokenType.STRING ∧
    (tokenAt loxScanner "a // x\n\"p\nq\" b" 0).line = 1 ∧
    (tokenAt loxScanner "a // x\n\"p\nq\" b" 1).line = 2 ∧
    (tokenAt loxScanner "a // x\n\"p\nq\" b" 2).line = 3 ∧
    (tokenAt loxScanner "a // x\n\"p\nq\" b" 2).line =
      (tokenAt loxScanner "a // x\n\"p\nq\" b" 1).line +
        (newlinesBetween "a // x\n\"p\nq\" b".toList
          (tokenAt loxScanner "a // x\n\"p\nq\" b" 1).start
          (tokenAt loxScanner "a // x\n\"p\nq\" b" 2).start : Nat) :=
  ⟨by decide, by decide, by decide, by decide,
    (token_lines_monotone loxLexicon "a // x\n\"p\nq\" b" 1).2.2⟩

/-- C7: maximal munch.  Wherever the unread input starts with a known two-character
operator, `scanToken` returns an operator token that starts there and spans at least
those two characters, never the one-character prefix; when no longer known spelling
matches there it is exactly that two-character operator, and `current` moves past both
characters.  In particular, if `<=` is a known operator, scanning `"<="` yields one
operator token with lexeme `<=` followed by `EOF`. -/
theorem maximal_munch :
    (∀ (s : Scanner) (a b : Char) (tl : List Char),
      s.source.drop s.current = a :: b :: tl →
      [a, b] ∈ lx.operators →
      ((scanToken lx s).1.kind = TokenType.OPERATOR ∧
        (scanToken lx s).1.start = s.current ∧
        2 ≤ (scanToken lx s).1.length ∧
        [a, b] <+: (scanToken lx s).1.lexeme s.source) ∧
      ((∀ w, w ∈ lx.operators → w <+: a :: b :: tl → w.length ≤ 2) →
        (scanToken lx s).1 =
          { kind := TokenType.OPERATOR, start := s.current, length := 2, line := s.line,
            reason := "" } ∧
        (scanToken lx s).1.lexeme s.source = [a, b] ∧
        (scanToken lx s).2.current = s.current + 2)) ∧
    (['<', '='] ∈ lx.operators →
      tokenAt (specScanner lx) "<=" 0 =
        { kind := TokenType.OPERATOR, start := 0, length := 2, line := 1, reason := "" } ∧
      (tokenAt (specScanner lx) "<=" 0).lexeme "<=".toList = "<=".toList ∧
      tokenAt (specScanner lx) "<=" 1 = eofToken 2 1) := by
  constructor
  · intro s a b tl hcur hop
    obtain ⟨heq, hge⟩ := scanToken_operator lx s a b tl hcur hop
    constructor
    · rw [heq]
      refine ⟨rfl, rfl, hge, ?_⟩
      obtain ⟨m, hm⟩ : ∃ m, longestOperator lx.operators (a :: b :: tl) = m + 2 :=
        ⟨longestOperator lx.operators (a :: b :: tl) - 2, by omega⟩
      simp only [Token.lexeme, hcur, hm, List.take_succ_cons]
      exact ⟨tl.take m, rfl⟩
    · intro hlong
      rw [heq, longestOperator_eq_two lx a b tl hop hlong]
      refine ⟨rfl, ?_, rfl⟩
      simp [Token.lexeme, hcur]
  · intro hop
    have hlong : ∀ w, w ∈ lx.operators → w <+: ['<', '='] → w.length ≤ 2 :=
      fun w _ hp => hp.length_le
    have h0 := (scanToken_operator lx (initScanner "<=") '<' '=' [] rfl hop).1
    rw [longestOperator_eq_two lx '<' '=' [] hop hlong] at h0
    have htok0 : tokenAt (specScanner lx) "<=" 0 =
        { kind := TokenType.OPERATOR, start := 0, length := 2, line := 1, reason := "" } := by
      rw [tokenAt_spec]
      show (scanToken lx (initScanner "<=")).1 = _
      rw [h0]
      rfl
    refine ⟨htok0, by rw [htok0]; rfl, ?_⟩
    rw [tokenAt_spec, scannerAt_succ]
    show (scanToken lx (scanToken lx (initScanner "<=")).2).1 = _
    rw [h0]
    show (scanToken lx { source := ['<', '='], start := 0, current := 2, line := 1 }).1 = _
    rw [scanToken_at_end lx ['<', '='] 0 2 1 rfl]
    rfl

theorem maximal_munch_witness :
    ['<', '='] ∈ loxLexicon.operators ∧
    (tokenAt (specScanner loxLexicon) "<=" 0 =
        { kind := TokenType.OPERATOR, start := 0, length := 2, line := 1, reason := "" } ∧
      (tokenAt (specScanner loxLexicon) "<=" 0).lexeme "<=".toList = "<=".toList ∧
      tokenAt (specScanner loxLexicon) "<=" 1 = eofToken 2 1) :=
  ⟨by decide, (maximal_munch loxLexicon).2 (by decide)⟩

end ScannerClaims

/-! ## The line-number column -/

section ColumnClaims

variable {σ : Type} (api : ScannerApi σ) (source : String)

/-- C8: line-prefix rule.  After `n` iterations the output is the concatenation, over
the first `n` tokens in order, of one prefix per token: the token's line formatted as
`"%4d "` when it differs from the line of the previously scanned token (`-1` before the
first) and `"   | "` otherwise; and after each iteration the tracked `line` equals the
line of the token just scanned. -/
theorem line_prefix_rule (n : Nat) :
    stdout (compile api source n).state.trace =
      String.join ((List.range n).map fun i =>
        linePrefix (prevLine api source i) (tokenAt api source i).line) ∧
    (compile api source (n + 1)).state.line = (tokenAt api source n).line := by
  rw [compile_trace, compile_line]
  exact ⟨stdout_traceAfter api source n, rfl⟩

/-- C9: for a token stream whose first `n` lines are non-decreasing and at least 1,
the iteration for token `i < n` prints a line number exactly when token `i` is the
first token on its line (and the marker otherwise); the printed line numbers are
strictly increasing, are exactly the lines of the first `n` tokens, and each of those
lines is printed exactly once. -/
theorem line_numbers_printed_once (n : Nat)
    (hmono : ∀ i j, i ≤ j → j < n →
      (tokenAt api source i).line ≤ (tokenAt api source j).line)
    (hpos : ∀ i, i < n → 1 ≤ (tokenAt api source i).line) :
    (∀ i, i < n →
      ((compile api source (i + 1)).state.trace.getLast? =
          some (Event.printf "%4d " [(tokenAt api source i).line]) ↔
        ∀ j, j < i → (tokenAt api source j).line ≠ (tokenAt api source i).line) ∧
      ((compile api source (i + 1)).state.trace.getLast? =
          some (Event.printf "   | " []) ↔
        ¬ ∀ j, j < i → (tokenAt api source j).line ≠ (tokenAt api source i).line)) ∧
    List.Pairwise (fun a b => a < b) (printedLines (compile api source n).state.trace) ∧
    (∀ l, l ∈ printedLines (compile api source n).state.trace ↔
      ∃ i, i < n ∧ (tokenAt api source i).line = l) ∧
    (∀ i, i < n →
      (printedLines (compile api source n).state.trace).count
        (tokenAt api source i).line = 1) := by
  obtain ⟨hsorted, hsound, hcomplete⟩ := printedLines_invariant api source n hmono hpos
  rw [compile_trace]
  refine ⟨?_, hsorted, ?_, ?_⟩
  · intro i hi
    have hiff := changed_iff_first api source n i hi hmono hpos
    rw [compile_trace, traceAfter_getLast]
    by_cases hne : (tokenAt api source i).line ≠ prevLine api source i
    · rw [if_pos hne]
      exact ⟨⟨fun _ => hiff.mp hne, fun _ => rfl⟩,
        ⟨fun h => by simp at h, fun h => absurd (hiff.mp hne) h⟩⟩
    · rw [if_neg hne]
      exact ⟨⟨fun h => by simp at h, fun h => absurd (hiff.mpr h) hne⟩,
        ⟨fun _ h => hne (hiff.mpr h), fun _ => rfl⟩⟩
  · intro l
    exact ⟨hsound l, fun ⟨i, hi, e⟩ => e ▸ hcomplete i hi⟩
  · intro i hi
    have hnodup : (printedLines (traceAfter api source n)).Nodup :=
      hsorted.imp (fun h => ne_of_lt h)
    exact List.count_eq_one_of_mem hnodup (hcomplete i hi)

theorem line_numbers_printed_once_witness :
    (∀ i j, i ≤ j → j < 3 →
      (tokenAt loxScanner "a b\nc" i).line ≤ (tokenAt loxScanner "a b\nc" j).line) ∧
    (∀ i, i < 3 → 1 ≤ (tokenAt loxScanner "a b\nc" i).line) ∧
    List.Pairwise (fun a b => a < b)
      (printedLines (compile loxScanner "a b\nc" 3).state.trace) ∧
    printedLines (compile loxScanner "a b\nc" 3).state.trace = [1, 2] := by
  have hmono : ∀ i j, i ≤ j → j < 3 →
      (tokenAt loxScanner "a b\nc" i).line ≤ (tokenAt loxScanner "a b\nc" j).line := by
    intro i j hij hj
    interval_cases j <;> interval_cases i <;> decide
  have hpos : ∀ i, i < 3 → 1 ≤ (tokenAt loxScanner "a b\nc" i).line := by
    intro i hi
    interval_cases i <;> decide
  exact ⟨hmono, hpos,
    (line_numbers_printed_once loxScanner "a b\nc" 3 hmono hpos).2.1, by decide⟩

/-- C10: column alignment.  If the first `n` tokens all have lines between 1 and 9999,
the output of each of the first `n` iterations has exactly 5 characters and the output
after `n` iterations has exactly `5 * n`; both kinds of prefix are 5 characters wide
for such a line, and for a line of 10000 or more the line-number prefix is longer. -/
theorem column_alignment (n : Nat)
    (h : ∀ i, i < n → 1 ≤ (tokenAt api source i).line ∧ (tokenAt api source i).line ≤ 9999) :
    (∀ i, i < n → (iterationOutput api source i).length = 5) ∧
    (stdout (compile api source n).state.trace).length = 5 * n ∧
    (∀ v : Int, 1 ≤ v → v ≤ 9999 →
      (Event.text (Event.printf "%4d " [v])).length = 5 ∧
      (Event.text (Event.printf "   | " [])).length = 5) ∧
    (∀ v : Int, 10000 ≤ v → 5 < (Event.text (Event.printf "%4d " [v])).length) := by
  refine ⟨?_, ?_, ?_, ?_⟩
  · intro i hi
    rw [iterationOutput_eq]
    exact linePrefix_length _ _ (h i hi).1 (h i hi).2
  · rw [compile_trace]
    induction n with
    | zero => rfl
    | succ n ih =>
      rw [traceAfter, stdout_append, String.length_append,
        ih (fun i hi => h i (by omega)), stdout_iterEvents,
        linePrefix_length _ _ (h n (by omega)).1 (h n (by omega)).2]
      omega
  · intro v h1 h2
    refine ⟨?_, by decide⟩
    rw [text_printf_line]
    simp [String.length, fmt4d_length_small v h1 h2]
  · intro v hv
    rw [text_printf_line]
    have := fmt4d_length_large v hv
    simp only [String.length, List.length_append, List.length_singleton]
    omega

theorem column_alignment_witness :
    (∀ i, i < 3 → 1 ≤ (tokenAt loxScanner "a b\nc" i).line ∧
      (tokenAt loxScanner "a b\nc" i).line ≤ 9999) ∧
    (stdout (compile loxScanner "a b\nc" 3).state.trace).length = 5 * 3 := by
  have h : ∀ i, i < 3 → 1 ≤ (tokenAt loxScanner "a b\nc" i).line ∧
      (tokenAt loxScanner "a b\nc" i).line ≤ 9999 := by
    intro i hi
    interval_cases i <;> decide
  exact ⟨h, (column_alignment loxScanner "a b\nc" 3 h).2.1⟩

end ColumnClaims
end Clox
